import Mathlib

/-!
Shallow embedding of `build_explanation.py`: a script that runs two
post-hoc explanation techniques (SHAP and LIME) over a GLUE validation
set and serializes per-example attribution records to JSON.

Attribution scores are opaque to the script (it only moves them around),
so they are modelled by a type parameter `V`.  Python dicts written to
JSON are modelled as insertion-ordered association lists of
`String × FieldVal V`.
-/

namespace BuildExplanation

/-- A value stored in one field of an explanation record
(the Python dict literals in `run_shap` / `run_lime`). -/
inductive FieldVal (V : Type) where
  | str : String → FieldVal V
  | strList : List String → FieldVal V
  | vList : List V → FieldVal V
  | int : Int → FieldVal V
  | val : V → FieldVal V
deriving DecidableEq

/-- One explanation record: a Python dict, kept in insertion order as
written by `json.dump`. -/
abbrev Record (V : Type) := List (String × FieldVal V)

/-- A result mapping keyed by example index (`shap_results` / `lime_results`). -/
abbrev ResultsMap (V : Type) := List (Nat × Record V)

/-- The per-text output of the SHAP explainer: `shap_results_i.data[j]`,
`shap_results_i.values[j]`, `shap_results_i.base_values[j]` for the single
text `j = 0` of a size-1 batch. -/
structure ShapOut (V : Type) where
  data : List String
  values : List V
  base_value : V

/-- The record built for one example in `run_shap` (lines 58-62). -/
def shapRecord {V : Type} (e : String → ShapOut V) (t : String) (l : Int) : Record V :=
  [("sentence", .str t),
   ("tokens", .strList (e t).data),
   ("attributions", .vList (e t).values),
   ("label", .int l),
   ("base_value", .val (e t).base_value)]

/-- The `while cur_start < len(texts)` loop of `run_shap` with `bsize = 1`:
each iteration takes the window `texts[cur_start:cur_start+1]`, runs the
explainer on it and stores the record at key `cur_start`. -/
def run_shapAux {V : Type} (e : String → ShapOut V) :
    List String → List Int → Nat → ResultsMap V
  | t :: ts, l :: ls, cur => (cur, shapRecord e t l) :: run_shapAux e ts ls (cur + 1)
  | _, _, _ => []

/-- `run_shap`: iterate the raw validation columns
(`dataset["sentence"]`, `dataset["label"]`) from `cur_start = 0`. -/
def run_shap {V : Type} (e : String → ShapOut V)
    (texts : List String) (labels : List Int) : ResultsMap V :=
  run_shapAux e texts labels 0

/-- The record built for one example in `run_lime` (lines 85-88):
both `tokens` and `attributions` are extracted component-wise from the
same list `exp_` returned by `explain_instance(...).as_list()`. -/
def limeRecord {V : Type} (exp_ : List (String × V)) (s : String) (l : Int) : Record V :=
  [("sentence", .str s),
   ("tokens", .strList (exp_.map Prod.fst)),
   ("attributions", .vList (exp_.map Prod.snd)),
   ("label", .int l)]

/-- `run_lime`: `for i, t in enumerate(dataset)` over row dicts
`(sentence, label)`; one `explain_instance` call per row. -/
def run_lime {V : Type} (eI : String → List (String × V))
    (ds : List (String × Int)) : ResultsMap V :=
  ds.enum.map (fun p => (p.1, limeRecord (eI p.2.1) p.2.1 p.2.2))

/-- Field accessor on a record: the `tokens` list, when present. -/
def recTokens {V : Type} (r : Record V) : Option (List String) :=
  match List.lookup "tokens" r with
  | some (.strList ts) => some ts
  | _ => none

/-- Field accessor on a record: the `attributions` list, when present. -/
def recAttrs {V : Type} (r : Record V) : Option (List V) :=
  match List.lookup "attributions" r with
  | some (.vList vs) => some vs
  | _ => none

/-- Field accessor on a record: the `sentence` string, when present. -/
def recSentence {V : Type} (r : Record V) : Option String :=
  match List.lookup "sentence" r with
  | some (.str s) => some s
  | _ => none

/-- Field accessor on a record: the `label`, when present. -/
def recLabel {V : Type} (r : Record V) : Option Int :=
  match List.lookup "label" r with
  | some (.int l) => some l
  | _ => none

/-- Field accessor on a record: the `base_value`, when present. -/
def recBaseValue {V : Type} (r : Record V) : Option V :=
  match List.lookup "base_value" r with
  | some (.val v) => some v
  | _ => none

/-! ### Regex searches used by `main`

`re.search(r"_([a-zA-Z0-9]+)\.pt", path)`, `re.search(r"teacher_(.+)_", path)`
and `re.search(r"student_(.+)_", path)`, embedded directly over `List Char`
with Python `re` semantics: leftmost match position, greedy quantifiers,
`.` matching any character except a newline. -/

/-- `[a-zA-Z0-9]`, as in the Python character class (ASCII only). -/
def isAlnumChar (c : Char) : Bool :=
  c.isAlpha || c.isDigit

/-- Try to match `_([a-zA-Z0-9]+)\.pt` anchored at the head of `l`,
returning the captured group.  `+` is greedy, and since `.` is not
alphanumeric no shorter group can succeed where the maximal run fails. -/
def matchTaskAt : List Char → Option (List Char)
  | [] => none
  | c :: rest =>
    if c = '_' then
      let g := rest.takeWhile isAlnumChar
      if g ≠ [] ∧ (rest.dropWhile isAlnumChar).take 3 = ['.', 'p', 't'] then
        some g
      else none
    else none

/-- `re.search(r"_([a-zA-Z0-9]+)\.pt", ...)`: try every start position
from the left and return the first captured group. -/
def searchTask : List Char → Option (List Char)
  | [] => none
  | c :: cs =>
    match matchTaskAt (c :: cs) with
    | some g => some g
    | none => searchTask cs

/-- Index of the last `'_'` in `P` at position ≥ 1, if any: the greedy
backtracking target for `(.+)_` once `.+` has consumed the longest
newline-free run. -/
def lastSepIdx (P : List Char) : Option Nat :=
  ((List.range P.length).filter
    (fun j => decide (1 ≤ j) && decide (P[j]? = some '_'))).getLast?

/-- Try to match `<key>(.+)_` anchored at the head of `l`:
the literal `key` (e.g. `teacher_`), then a greedy `.+` (any characters
except newline), then a literal `_`; returns the captured group. -/
def matchKeyAt (key : List Char) (l : List Char) : Option (List Char) :=
  if l.take key.length = key then
    match lastSepIdx ((l.drop key.length).takeWhile (fun c => c != '\n')) with
    | some j => some (((l.drop key.length).takeWhile (fun c => c != '\n')).take j)
    | none => none
  else none

/-- `re.search(r"<key>(.+)_", ...)`: leftmost start position wins. -/
def searchKey (key : List Char) : List Char → Option (List Char)
  | [] => none
  | c :: cs =>
    match matchKeyAt key (c :: cs) with
    | some g => some g
    | none => searchKey key cs

/-- The literal `teacher_` of the pattern `teacher_(.+)_`. -/
def teacherKey : List Char := ['t', 'e', 'a', 'c', 'h', 'e', 'r', '_']

/-- The literal `student_` of the pattern `student_(.+)_`. -/
def studentKey : List Char := ['s', 't', 'u', 'd', 'e', 'n', 't', '_']

/-! ### The `main` control flow -/

/-- The Python exceptions that `main` can observe. -/
inductive PyExc where
  | typeError
  | fileNotFoundError
  | runtimeError
  | attributeError
deriving DecidableEq

/-- Output lines printed by the modelled parts of `main`. -/
inductive Printed where
  | invalidPath
  | loadError : PyExc → Printed
  | modelLoaded
deriving DecidableEq

/-- Lines 103-107: resolve the task from the model path.
`re.search` on a missing (`None`) path raises `TypeError`, which the
surrounding handler catches and prints, keeping the `--task` value;
otherwise the captured group replaces the task when the pattern matches. -/
def resolveTaskStep (model_path : Option String) (task : String) :
    String × List Printed :=
  match model_path with
  | none => (task, [.invalidPath])
  | some p =>
    match searchTask p.data with
    | some g => (String.mk g, [])
    | none => (task, [])

/-- Line 124: `3 if task.startswith("mnli") else 1 if task == "stsb" else 2`. -/
def numLabels (task : String) : Nat :=
  if task.data.take 4 = ['m', 'n', 'l', 'i'] then 3
  else if task = "stsb" then 1 else 2

/-- Lines 116-123: resolve the model type and the `is_teacher` flag from
the model path.  `re.search` on a missing path raises `TypeError`;
when neither pattern matches, `match_student.group(1)` is `None.group(1)`,
which raises `AttributeError`. -/
def resolveModelType : Option String → Except PyExc (String × Bool)
  | none => .error .typeError
  | some p =>
    match searchKey teacherKey p.data with
    | some g => .ok (String.mk g, true)
    | none =>
      match searchKey studentKey p.data with
      | some g => .ok (String.mk g, false)
      | none => .error .attributeError

/-- The exception classes named by the `except` clauses of lines 128-133. -/
def caughtAtLoad : List PyExc :=
  [.fileNotFoundError, .runtimeError, .typeError]

/-- State after the non-debug model-loading block: which model (if any)
was bound, which model type / flag (if any) was bound, and what was
printed. -/
structure LoadResult (M : Type) where
  model : Option M
  modelType : Option (String × Bool)
  printed : List Printed
deriving DecidableEq

/-- Lines 115-133, the non-debug `try`/`except` block.  Loading the model
(`from_pretrained` + `load_state_dict`) is external; it is abstracted as
`load`, taking the resolved model type and `num_labels` and either
producing a model or raising.  An exception named by an `except` clause is
printed and execution falls through (`.ok`) with no retry and no
substitute model; any other exception propagates (`.error`). -/
def tryLoadModel {M : Type} (load : String → Nat → Except PyExc M)
    (model_path : Option String) (task : String) :
    Except PyExc (LoadResult M) :=
  match resolveModelType model_path with
  | .error e =>
    if e ∈ caughtAtLoad then .ok ⟨none, none, [.loadError e]⟩ else .error e
  | .ok (mt, it) =>
    match load mt (numLabels task) with
    | .ok m => .ok ⟨some m, some (mt, it), [.modelLoaded]⟩
    | .error e =>
      if e ∈ caughtAtLoad then .ok ⟨none, some (mt, it), [.loadError e]⟩
      else .error e

/-- The `--exp_type` choices. -/
inductive ExpType where
  | shap
  | lime
  | all
deriving DecidableEq

/-- Line 159: `explanation_results/{model_type}/{model_type}_{task}_shap.json`. -/
def shapPath (model_type task : String) : String :=
  "explanation_results/" ++ model_type ++ "/" ++ model_type ++ "_" ++ task
    ++ "_shap.json"

/-- Line 165: `explanation_results/{model_type}/{model_type}_{task}_lime.json`. -/
def limePath (model_type task : String) : String :=
  "explanation_results/" ++ model_type ++ "/" ++ model_type ++ "_" ++ task
    ++ "_lime.json"

/-- The raw validation dataset, column-oriented:
`val_raw_dataset["sentence"]` and `val_raw_dataset["label"]`. -/
structure RawDS where
  sentences : List String
  labels : List Int

/-- Line 147: `val_raw_dataset[:4]` keeps the first four entries of each
column. -/
def debugTruncate (d : RawDS) : RawDS :=
  ⟨d.sentences.take 4, d.labels.take 4⟩

/-- Row view of the raw dataset: iterating a dataset yields row dicts,
and line 163 rebuilds the same rows from the columns in debug mode. -/
def rowsOfCols (d : RawDS) : List (String × Int) :=
  d.sentences.zip d.labels

/-- Lines 157-166: which JSON files `main` writes, in order, with their
payloads.  SHAP runs on the raw columns, LIME on the rows; the raw
dataset was already truncated when `--debug` is set (line 145-147). -/
def mainWrites {V : Type} (et : ExpType) (model_type task : String)
    (e : String → ShapOut V) (eI : String → List (String × V))
    (d : RawDS) (debug : Bool) : List (String × ResultsMap V) :=
  let d := if debug then debugTruncate d else d
  (if et = .all ∨ et = .shap then
    [(shapPath model_type task, run_shap e d.sentences d.labels)] else [])
  ++ (if et = .all ∨ et = .lime then
    [(limePath model_type task, run_lime eI (rowsOfCols d))] else [])

/-! ### The SHAP prediction function -/

/-- Line 38: `logits = logits[:, 1]`.  Selecting column 1 of the logits
matrix succeeds exactly when every row has an index 1; a missing index is
an out-of-bounds failure (`none`). -/
def selectLogits1 {V : Type} : List (List V) → Option (List V)
  | [] => some []
  | row :: rest =>
    match row[1]?, selectLogits1 rest with
    | some v, some vs => some (v :: vs)
    | _, _ => none

/-- The closure returned by `predict_func`: run the model on the batch
and keep the class-1 logit of each example. -/
def predictShap {V : Type} (model : List String → List (List V))
    (xs : List String) : Option (List V) :=
  selectLogits1 (model xs)

/-! ### Structural lemmas about the two explanation loops -/

theorem recSentence_shapRecord {V : Type} (e : String → ShapOut V) (t : String)
    (l : Int) : recSentence (shapRecord e t l) = some t := rfl

theorem recTokens_shapRecord {V : Type} (e : String → ShapOut V) (t : String)
    (l : Int) : recTokens (shapRecord e t l) = some (e t).data := rfl

theorem recAttrs_shapRecord {V : Type} (e : String → ShapOut V) (t : String)
    (l : Int) : recAttrs (shapRecord e t l) = some (e t).values := rfl

theorem recLabel_shapRecord {V : Type} (e : String → ShapOut V) (t : String)
    (l : Int) : recLabel (shapRecord e t l) = some l := rfl

theorem recBaseValue_shapRecord {V : Type} (e : String → ShapOut V) (t : String)
    (l : Int) : recBaseValue (shapRecord e t l) = some (e t).base_value := rfl

theorem recSentence_limeRecord {V : Type} (exp_ : List (String × V)) (s : String)
    (l : Int) : recSentence (limeRecord exp_ s l) = some s := rfl

theorem recTokens_limeRecord {V : Type} (exp_ : List (String × V)) (s : String)
    (l : Int) : recTokens (limeRecord exp_ s l) = some (exp_.map Prod.fst) := rfl

theorem recAttrs_limeRecord {V : Type} (exp_ : List (String × V)) (s : String)
    (l : Int) : recAttrs (limeRecord exp_ s l) = some (exp_.map Prod.snd) := rfl

theorem recLabel_limeRecord {V : Type} (exp_ : List (String × V)) (s : String)
    (l : Int) : recLabel (limeRecord exp_ s l) = some l := rfl

theorem lookup_base_value_limeRecord {V : Type} (exp_ : List (String × V))
    (s : String) (l : Int) : List.lookup "base_value" (limeRecord exp_ s l) = none := rfl

theorem run_shapAux_mem {V : Type} (e : String → ShapOut V) :
    ∀ (ts : List String) (ls : List Int) (c : Nat) (ir : Nat × Record V),
      ir ∈ run_shapAux e ts ls c →
      ∃ t l, t ∈ ts ∧ l ∈ ls ∧ ir.2 = shapRecord e t l := by
  intro ts
  induction ts with
  | nil => intro ls c ir h; simp [run_shapAux] at h
  | cons t ts ih =>
    intro ls c ir h
    cases ls with
    | nil => simp [run_shapAux] at h
    | cons l ls =>
      simp only [run_shapAux, List.mem_cons] at h
      rcases h with h | h
      · exact ⟨t, l, by simp, by simp, by rw [h]⟩
      · obtain ⟨t', l', ht, hl, hr⟩ := ih ls (c + 1) ir h
        exact ⟨t', l', by simp [ht], by simp [hl], hr⟩

theorem run_shapAux_keys {V : Type} (e : String → ShapOut V) :
    ∀ (ts : List String) (ls : List Int), ts.length = ls.length →
      ∀ c, (run_shapAux e ts ls c).map Prod.fst = List.range' c ts.length := by
  intro ts
  induction ts with
  | nil => intro ls _ c; simp [run_shapAux]
  | cons t ts ih =>
    intro ls h c
    cases ls with
    | nil => simp at h
    | cons l ls =>
      simp only [List.length_cons, Nat.succ.injEq] at h
      simp [run_shapAux, List.range', ih ls h (c + 1)]

theorem run_shapAux_getElem? {V : Type} (e : String → ShapOut V) :
    ∀ (ts : List String) (ls : List Int) (c i : Nat) (t : String) (l : Int),
      ts[i]? = some t → ls[i]? = some l →
      (run_shapAux e ts ls c)[i]? = some (c + i, shapRecord e t l) := by
  intro ts
  induction ts with
  | nil => intro ls c i t l ht; simp at ht
  | cons t0 ts ih =>
    intro ls c i t l ht hl
    cases ls with
    | nil => simp at hl
    | cons l0 ls =>
      cases i with
      | zero =>
        simp at ht hl
        simp [run_shapAux, ht, hl]
      | succ i =>
        simp only [List.getElem?_cons_succ] at ht hl
        have := ih ls (c + 1) i t l ht hl
        simp [run_shapAux, this, Nat.add_assoc, Nat.add_comm 1 i]

theorem run_lime_keys {V : Type} (eI : String → List (String × V))
    (ds : List (String × Int)) :
    (run_lime eI ds).map Prod.fst = List.range ds.length := by
  unfold run_lime
  rw [List.map_map]
  have h : (Prod.fst ∘ fun p : Nat × (String × Int) =>
      (p.1, limeRecord (eI p.2.1) p.2.1 p.2.2)) = Prod.fst := rfl
  rw [h, List.enum_map_fst]

theorem run_lime_getElem? {V : Type} (eI : String → List (String × V))
    (ds : List (String × Int)) (i : Nat) (s : String) (l : Int)
    (h : ds[i]? = some (s, l)) :
    (run_lime eI ds)[i]? = some (i, limeRecord (eI s) s l) := by
  simp [run_lime, List.getElem?_enum, h]

theorem run_lime_mem {V : Type} (eI : String → List (String × V))
    (ds : List (String × Int)) (ir : Nat × Record V) (h : ir ∈ run_lime eI ds) :
    ∃ s l, (s, l) ∈ ds ∧ ir.1 < ds.length ∧ ds[ir.1]? = some (s, l) ∧
      ir.2 = limeRecord (eI s) s l := by
  simp only [run_lime, List.mem_map] at h
  obtain ⟨p, hp, heq⟩ := h
  rw [List.mem_enum_iff_getElem?] at hp
  have h2 : ds[p.1]? = some (p.2.1, p.2.2) := by simpa using hp
  have hlt : p.1 < ds.length := by
    rcases List.getElem?_eq_some.mp h2 with ⟨hfin, -⟩
    exact hfin
  refine ⟨p.2.1, p.2.2, List.getElem?_mem h2, ?_, ?_, ?_⟩
  · rw [← heq]; exact hlt
  · rw [← heq]; exact h2
  · rw [← heq]

theorem run_shapAux_mem_idx {V : Type} (e : String → ShapOut V) :
    ∀ (ts : List String) (ls : List Int) (c : Nat) (ir : Nat × Record V),
      ir ∈ run_shapAux e ts ls c →
      ∃ t l, c ≤ ir.1 ∧ ts[ir.1 - c]? = some t ∧ ls[ir.1 - c]? = some l ∧
        ir.2 = shapRecord e t l := by
  intro ts
  induction ts with
  | nil => intro ls c ir h; simp [run_shapAux] at h
  | cons t ts ih =>
    intro ls c ir h
    cases ls with
    | nil => simp [run_shapAux] at h
    | cons l ls =>
      simp only [run_shapAux, List.mem_cons] at h
      rcases h with h | h
      · refine ⟨t, l, ?_, ?_, ?_, ?_⟩ <;> simp [h]
      · obtain ⟨t', l', hc, ht, hl, hr⟩ := ih ls (c + 1) ir h
        have hk : ir.1 - c = (ir.1 - (c + 1)) + 1 := by omega
        refine ⟨t', l', by omega, ?_, ?_, hr⟩
        · rw [hk, List.getElem?_cons_succ]; exact ht
        · rw [hk, List.getElem?_cons_succ]; exact hl

/-! ### Concrete fixtures used by witness theorems -/

/-- A concrete SHAP explainer for witnesses. -/
def wShapE : String → ShapOut Int := fun _ => ⟨["tok"], [2], 5⟩

/-- A concrete LIME `explain_instance` for witnesses. -/
def wLimeE : String → List (String × Int) := fun _ => [("w", 3)]

/-- A concrete raw validation dataset with five examples. -/
def wRaw : RawDS := ⟨["s0", "s1", "s2", "s3", "s4"], [0, 1, 0, 1, 0]⟩

/-! ### Claims -/

/-- C1: in every record produced by either technique, the `tokens` and
`attributions` lists have the same length: `run_shap` takes them from the
explainer's aligned `data[j]` / `values[j]`, and `run_lime` extracts both
component-wise from the same list `exp_`. -/
theorem C1_record_token_attribution_alignment
    {V : Type} (e : String → ShapOut V) (eI : String → List (String × V))
    (texts : List String) (labels : List Int) (ds : List (String × Int))
    (halign : ∀ t, (e t).data.length = (e t).values.length) :
    (∀ ir ∈ run_shap e texts labels,
      ∃ ts vs, recTokens ir.2 = some ts ∧ recAttrs ir.2 = some vs ∧
        ts.length = vs.length) ∧
    (∀ ir ∈ run_lime eI ds,
      ∃ ts vs, recTokens ir.2 = some ts ∧ recAttrs ir.2 = some vs ∧
        ts.length = vs.length) := by
  constructor
  · intro ir hir
    obtain ⟨t, l, -, -, hr⟩ := run_shapAux_mem e texts labels 0 ir hir
    exact ⟨(e t).data, (e t).values,
      by rw [hr, recTokens_shapRecord], by rw [hr, recAttrs_shapRecord], halign t⟩
  · intro ir hir
    obtain ⟨s, l, -, -, -, hr⟩ := run_lime_mem eI ds ir hir
    exact ⟨(eI s).map Prod.fst, (eI s).map Prod.snd,
      by rw [hr, recTokens_limeRecord], by rw [hr, recAttrs_limeRecord], by simp⟩

theorem C1_record_token_attribution_alignment_witness :
    (∀ ir ∈ run_shap wShapE ["x"] [0],
      ∃ ts vs, recTokens ir.2 = some ts ∧ recAttrs ir.2 = some vs ∧
        ts.length = vs.length) ∧
    (∀ ir ∈ run_lime wLimeE [("y", 1)],
      ∃ ts vs, recTokens ir.2 = some ts ∧ recAttrs ir.2 = some vs ∧
        ts.length = vs.length) :=
  C1_record_token_attribution_alignment wShapE wLimeE ["x"] [0] [("y", 1)]
    (fun _ => rfl)

/-- C2: for a validation dataset of `n` examples, each technique's result
mapping has exactly the keys `0 .. n-1` in order, and the record at key
`i` stores example `i`'s sentence and label. -/
theorem C2_results_keyed_by_example_index
    {V : Type} (e : String → ShapOut V) (eI : String → List (String × V))
    (texts : List String) (labels : List Int) (ds : List (String × Int))
    (h : texts.length = labels.length) :
    ((run_shap e texts labels).map Prod.fst = List.range texts.length ∧
      ∀ (i : Nat) (t : String) (l : Int), texts[i]? = some t → labels[i]? = some l →
        ∃ r, (run_shap e texts labels)[i]? = some (i, r) ∧
          recSentence r = some t ∧ recLabel r = some l) ∧
    ((run_lime eI ds).map Prod.fst = List.range ds.length ∧
      ∀ (i : Nat) (s : String) (l : Int), ds[i]? = some (s, l) →
        ∃ r, (run_lime eI ds)[i]? = some (i, r) ∧
          recSentence r = some s ∧ recLabel r = some l) := by
  refine ⟨⟨?_, ?_⟩, ?_, ?_⟩
  · rw [List.range_eq_range']
    exact run_shapAux_keys e texts labels h 0
  · intro i t l ht hl
    refine ⟨shapRecord e t l, ?_, recSentence_shapRecord e t l,
      recLabel_shapRecord e t l⟩
    simpa [run_shap] using run_shapAux_getElem? e texts labels 0 i t l ht hl
  · exact run_lime_keys eI ds
  · intro i s l hd
    exact ⟨limeRecord (eI s) s l, run_lime_getElem? eI ds i s l hd,
      recSentence_limeRecord (eI s) s l, recLabel_limeRecord (eI s) s l⟩

theorem C2_results_keyed_by_example_index_witness :
    ((run_shap wShapE ["x", "y"] [0, 1]).map Prod.fst = List.range 2 ∧
      ∀ (i : Nat) (t : String) (l : Int), ["x", "y"][i]? = some t → [(0 : Int), 1][i]? = some l →
        ∃ r, (run_shap wShapE ["x", "y"] [0, 1])[i]? = some (i, r) ∧
          recSentence r = some t ∧ recLabel r = some l) ∧
    ((run_lime wLimeE [("a", 0)]).map Prod.fst = List.range 1 ∧
      ∀ (i : Nat) (s : String) (l : Int), [("a", (0 : Int))][i]? = some (s, l) →
        ∃ r, (run_lime wLimeE [("a", 0)])[i]? = some (i, r) ∧
          recSentence r = some s ∧ recLabel r = some l) :=
  C2_results_keyed_by_example_index wShapE wLimeE ["x", "y"] [0, 1] [("a", 0)]
    rfl

/-- C4: `run_lime` runs `explain_instance` on exactly one sentence per
iteration (the record at key `i` is built from row `i` alone), while
`run_shap` advances a window of size `bsize = 1` over the texts, so every
index is covered exactly once and the record at key `i` is built from the
window starting at `i`. -/
theorem C4_iteration_granularity
    {V : Type} (e : String → ShapOut V) (eI : String → List (String × V))
    (texts : List String) (labels : List Int) (ds : List (String × Int))
    (h : texts.length = labels.length) :
    ((run_shap e texts labels).map Prod.fst = List.range texts.length ∧
      ∀ ir ∈ run_shap e texts labels,
        ∃ t l, texts[ir.1]? = some t ∧ labels[ir.1]? = some l ∧
          ir.2 = shapRecord e t l) ∧
    (∀ ir ∈ run_lime eI ds,
      ∃ s l, ds[ir.1]? = some (s, l) ∧ ir.2 = limeRecord (eI s) s l) := by
  refine ⟨⟨?_, ?_⟩, ?_⟩
  · rw [List.range_eq_range']
    exact run_shapAux_keys e texts labels h 0
  · intro ir hir
    obtain ⟨t, l, -, ht, hl, hr⟩ := run_shapAux_mem_idx e texts labels 0 ir hir
    exact ⟨t, l, by simpa using ht, by simpa using hl, hr⟩
  · intro ir hir
    obtain ⟨s, l, -, -, hd, hr⟩ := run_lime_mem eI ds ir hir
    exact ⟨s, l, hd, hr⟩

theorem C4_iteration_granularity_witness :
    ((run_shap wShapE ["x", "y"] [0, 1]).map Prod.fst = List.range 2 ∧
      ∀ ir ∈ run_shap wShapE ["x", "y"] [0, 1],
        ∃ t l, ["x", "y"][ir.1]? = some t ∧ [(0 : Int), 1][ir.1]? = some l ∧
          ir.2 = shapRecord wShapE t l) ∧
    (∀ ir ∈ run_lime wLimeE [("a", 0)],
      ∃ s l, [("a", (0 : Int))][ir.1]? = some (s, l) ∧
        ir.2 = limeRecord (wLimeE s) s l) :=
  C4_iteration_granularity wShapE wLimeE ["x", "y"] [0, 1] [("a", 0)] rfl

/-- C7: every `run_shap` record carries a `base_value` field taken from
the explainer's `base_values`, no `run_lime` record has a `base_value`
field at all, and records of both kinds always carry `sentence`,
`tokens`, `attributions` and `label`. -/
theorem C7_base_value_technique_specific
    {V : Type} (e : String → ShapOut V) (eI : String → List (String × V))
    (texts : List String) (labels : List Int) (ds : List (String × Int)) :
    (∀ ir ∈ run_shap e texts labels,
      ∃ t, t ∈ texts ∧ recSentence ir.2 = some t ∧
        recBaseValue ir.2 = some (e t).base_value ∧
        (recTokens ir.2).isSome ∧ (recAttrs ir.2).isSome ∧
        (recLabel ir.2).isSome) ∧
    (∀ ir ∈ run_lime eI ds,
      List.lookup "base_value" ir.2 = none ∧
      (recSentence ir.2).isSome ∧ (recTokens ir.2).isSome ∧
      (recAttrs ir.2).isSome ∧ (recLabel ir.2).isSome) := by
  constructor
  · intro ir hir
    obtain ⟨t, l, ht, -, hr⟩ := run_shapAux_mem e texts labels 0 ir hir
    refine ⟨t, ht, ?_, ?_, ?_, ?_, ?_⟩ <;> rw [hr] <;> rfl
  · intro ir hir
    obtain ⟨s, l, -, -, -, hr⟩ := run_lime_mem eI ds ir hir
    refine ⟨?_, ?_, ?_, ?_, ?_⟩ <;> rw [hr] <;> rfl

/-- C3: the program's only failure recovery is printing caught exceptions.
An exception of one of the three named classes raised while loading the
model — or the `TypeError` the task-resolution `re.search` raises on a
missing model path — is caught, a message is printed, and execution
continues past the handler (`.ok`): no retry, no default model
(the model slot stays empty), no abort. -/
theorem C3_print_and_continue_recovery
    {M : Type} (load : String → Nat → Except PyExc M)
    (mp : Option String) (task : String) (e : PyExc)
    (he : e ∈ caughtAtLoad) :
    caughtAtLoad = [.fileNotFoundError, .runtimeError, .typeError] ∧
    resolveTaskStep none task = (task, [.invalidPath]) ∧
    (∀ mt it, resolveModelType mp = .ok (mt, it) →
      tryLoadModel (fun _ _ => (.error e : Except PyExc M)) mp task =
        .ok ⟨none, some (mt, it), [.loadError e]⟩) ∧
    (resolveModelType mp = .error e →
      tryLoadModel load mp task = .ok ⟨none, none, [.loadError e]⟩) := by
  refine ⟨rfl, rfl, ?_, ?_⟩
  · intro mt it hres
    unfold tryLoadModel
    rw [hres]
    simp [he]
  · intro hres
    unfold tryLoadModel
    rw [hres]
    simp [he]

theorem C3_print_and_continue_recovery_witness :
    PyExc.runtimeError ∈ caughtAtLoad ∧
    (caughtAtLoad = [.fileNotFoundError, .runtimeError, .typeError] ∧
      resolveTaskStep none "sst2" = ("sst2", [.invalidPath]) ∧
      (∀ mt it, resolveModelType (some "teacher_bert_sst2.pt") = .ok (mt, it) →
        tryLoadModel (fun _ _ => (.error .runtimeError : Except PyExc Unit))
            (some "teacher_bert_sst2.pt") "sst2" =
          .ok ⟨none, some (mt, it), [.loadError .runtimeError]⟩) ∧
      (resolveModelType (some "teacher_bert_sst2.pt") = .error .runtimeError →
        tryLoadModel (fun _ _ => .ok ()) (some "teacher_bert_sst2.pt") "sst2" =
          .ok ⟨none, none, [.loadError .runtimeError]⟩)) :=
  ⟨by decide,
   C3_print_and_continue_recovery (fun _ _ => .ok ())
     (some "teacher_bert_sst2.pt") "sst2" .runtimeError (by decide)⟩

/-- C6: exactly the requested techniques write their JSON file:
`shap` writes only the SHAP results file, `lime` only the LIME results
file, and `all` writes both with SHAP first; each file path is
`explanation_results/<model_type>/<model_type>_<task>_<technique>.json`
and each payload is the corresponding technique's result mapping. -/
theorem C6_requested_techniques_written
    {V : Type} (mt task : String) (e : String → ShapOut V)
    (eI : String → List (String × V)) (d : RawDS) (debug : Bool) :
    mainWrites .shap mt task e eI d debug =
      [(shapPath mt task,
        run_shap e (if debug then debugTruncate d else d).sentences
          (if debug then debugTruncate d else d).labels)] ∧
    mainWrites .lime mt task e eI d debug =
      [(limePath mt task,
        run_lime eI (rowsOfCols (if debug then debugTruncate d else d)))] ∧
    mainWrites .all mt task e eI d debug =
      mainWrites .shap mt task e eI d debug
        ++ mainWrites .lime mt task e eI d debug := by
  refine ⟨?_, ?_, ?_⟩ <;> simp [mainWrites]

/-- C8: with `--debug`, the raw validation data is truncated to its first
four entries before the explanation loops, so (for a validation set of at
least four examples) each technique's result mapping has exactly the keys
`0, 1, 2, 3`. -/
theorem C8_debug_truncates_to_first_four
    {V : Type} (e : String → ShapOut V) (eI : String → List (String × V))
    (d : RawDS) (hlen : d.sentences.length = d.labels.length)
    (h4 : 4 ≤ d.sentences.length) :
    (debugTruncate d).sentences = d.sentences.take 4 ∧
    (debugTruncate d).labels = d.labels.take 4 ∧
    (run_shap e (debugTruncate d).sentences (debugTruncate d).labels).map
        Prod.fst = [0, 1, 2, 3] ∧
    (run_lime eI (rowsOfCols (debugTruncate d))).map Prod.fst =
      [0, 1, 2, 3] := by
  have hs : (debugTruncate d).sentences.length = 4 := by
    simp [debugTruncate]
    omega
  have hl : (debugTruncate d).labels.length = 4 := by
    simp [debugTruncate]
    omega
  refine ⟨rfl, rfl, ?_, ?_⟩
  · have := run_shapAux_keys e (debugTruncate d).sentences
      (debugTruncate d).labels (by rw [hs, hl]) 0
    rw [run_shap, this, hs]
    rfl
  · rw [run_lime_keys]
    have : (rowsOfCols (debugTruncate d)).length = 4 := by
      simp [rowsOfCols, hs, hl]
    rw [this]
    rfl

theorem C8_debug_truncates_to_first_four_witness :
    ((debugTruncate wRaw).sentences = wRaw.sentences.take 4 ∧
      (debugTruncate wRaw).labels = wRaw.labels.take 4 ∧
      (run_shap wShapE (debugTruncate wRaw).sentences
          (debugTruncate wRaw).labels).map Prod.fst = [0, 1, 2, 3] ∧
      (run_lime wLimeE (rowsOfCols (debugTruncate wRaw))).map Prod.fst =
        [0, 1, 2, 3]) :=
  C8_debug_truncates_to_first_four wShapE wLimeE wRaw rfl (by decide)

theorem selectLogits1_isSome {V : Type} :
    ∀ ls : List (List V), (∀ row ∈ ls, 2 ≤ row.length) →
      (selectLogits1 ls).isSome := by
  intro ls
  induction ls with
  | nil => intro; simp [selectLogits1]
  | cons row rest ih =>
    intro hall
    have h2 : 2 ≤ row.length := hall row (by simp)
    have hrow : row[1]? = some row[1] := List.getElem?_eq_getElem (by omega)
    have hrest := ih (fun r hr => hall r (by simp [hr]))
    obtain ⟨vs, hvs⟩ := Option.isSome_iff_exists.mp hrest
    simp [selectLogits1, hrow, hvs]

/-- C9: the SHAP prediction function keeps the class-1 logit of every
example, which is in bounds exactly when the model emits at least two
logits per example; the `stsb` task builds the model with
`num_labels = 1`, so on any nonempty batch whose rows have that width the
selection is out of bounds. -/
theorem C9_logit_index_requires_two_labels
    {V : Type} (model : List String → List (List V)) (xs : List String)
    (hne : model xs ≠ []) :
    ((∀ row ∈ model xs, 2 ≤ row.length) → (predictShap model xs).isSome) ∧
    numLabels "stsb" = 1 ∧
    ((∀ row ∈ model xs, row.length = numLabels "stsb") →
      predictShap model xs = none) := by
  have hstsb : numLabels "stsb" = 1 := rfl
  refine ⟨?_, hstsb, ?_⟩
  · intro hall
    exact selectLogits1_isSome (model xs) hall
  · intro hall
    unfold predictShap
    cases hm : model xs with
    | nil => exact absurd hm hne
    | cons row rest =>
      have h1 : row.length = 1 := by
        have := hall row (by rw [hm]; simp)
        rwa [hstsb] at this
      have hrow : row[1]? = none := List.getElem?_eq_none (by omega)
      simp [selectLogits1, hrow]

theorem C9_logit_index_requires_two_labels_witness :
    ((fun _ : List String => [[(7 : Int)]]) ["s"] ≠ []) ∧
    (((∀ row ∈ (fun _ : List String => [[(7 : Int)]]) ["s"], 2 ≤ row.length) →
        (predictShap (fun _ => [[(7 : Int)]]) ["s"]).isSome) ∧
      numLabels "stsb" = 1 ∧
      ((∀ row ∈ (fun _ : List String => [[(7 : Int)]]) ["s"],
          row.length = numLabels "stsb") →
        predictShap (fun _ => [[(7 : Int)]]) ["s"] = none)) :=
  ⟨by decide,
   C9_logit_index_requires_two_labels (fun _ => [[(7 : Int)]]) ["s"]
     (by decide)⟩

/-- C10: in non-debug mode, a model path matching neither `teacher_(.+)_`
nor `student_(.+)_` makes `match_student.group(1)` raise an
`AttributeError`, which is not among the three caught exception classes,
so it propagates out of the block instead of being printed. -/
theorem C10_unmatched_path_uncaught
    {M : Type} (load : String → Nat → Except PyExc M) (p task : String)
    (hT : searchKey teacherKey p.data = none)
    (hS : searchKey studentKey p.data = none) :
    tryLoadModel load (some p) task = .error .attributeError ∧
    PyExc.attributeError ∉ caughtAtLoad := by
  constructor
  · have hres : resolveModelType (some p) = .error .attributeError := by
      simp only [resolveModelType, hT, hS]
    unfold tryLoadModel
    rw [hres]
    simp [caughtAtLoad]
  · decide

theorem C10_unmatched_path_uncaught_witness :
    (searchKey teacherKey "model.pt".data = none ∧
      searchKey studentKey "model.pt".data = none) ∧
    (tryLoadModel (fun _ _ => .ok ()) (some "model.pt") "sst2" =
        .error .attributeError ∧
      PyExc.attributeError ∉ caughtAtLoad) :=
  ⟨⟨rfl, rfl⟩,
   C10_unmatched_path_uncaught (fun _ _ => .ok ()) "model.pt" "sst2" rfl rfl⟩

/-! ### Characterization of the three `re.search` embeddings -/

theorem takeWhile_append_of_all {α : Type} (p : α → Bool) :
    ∀ (g : List α), (∀ x ∈ g, p x = true) → ∀ (c : α), p c = false →
      ∀ (t : List α), (g ++ c :: t).takeWhile p = g ∧
        (g ++ c :: t).dropWhile p = c :: t := by
  intro g
  induction g with
  | nil =>
    intro _ c hc t
    simp [List.takeWhile_cons, List.dropWhile_cons, hc]
  | cons a g ih =>
    intro hall c hc t
    have ha : p a = true := hall a (by simp)
    have h2 := ih (fun x hx => hall x (by simp [hx])) c hc t
    simp [List.takeWhile_cons, List.dropWhile_cons, ha, h2.1, h2.2]

theorem takeWhile_append_all {α : Type} (p : α → Bool) :
    ∀ (g : List α), (∀ x ∈ g, p x = true) →
      ∀ (t : List α), (g ++ t).takeWhile p = g ++ t.takeWhile p := by
  intro g
  induction g with
  | nil => intro _ t; simp
  | cons a g ih =>
    intro hall t
    have ha : p a = true := hall a (by simp)
    simp [List.takeWhile_cons, ha, ih (fun x hx => hall x (by simp [hx])) t]

theorem matchTaskAt_sound {l g : List Char} (h : matchTaskAt l = some g) :
    ∃ b, l = '_' :: (g ++ '.' :: 'p' :: 't' :: b) ∧ g ≠ [] ∧
      ∀ x ∈ g, isAlnumChar x = true := by
  cases l with
  | nil => simp [matchTaskAt] at h
  | cons c rest =>
    simp only [matchTaskAt] at h
    split_ifs at h with hc hcond
    · obtain ⟨hne, hdrop⟩ := hcond
      injection h with h
      subst h
      subst hc
      refine ⟨(rest.dropWhile isAlnumChar).drop 3, ?_, hne, ?_⟩
      · have h1 : rest.takeWhile isAlnumChar ++ rest.dropWhile isAlnumChar
            = rest := List.takeWhile_append_dropWhile isAlnumChar rest
        have h2 : (rest.dropWhile isAlnumChar).take 3
              ++ (rest.dropWhile isAlnumChar).drop 3
            = rest.dropWhile isAlnumChar := List.take_append_drop 3 _
        rw [hdrop] at h2
        conv_lhs => rw [← h1, ← h2]
        rfl
      · intro x hx
        exact List.mem_takeWhile_imp hx

theorem matchTaskAt_complete {g : List Char} (b : List Char) (hne : g ≠ [])
    (ha : ∀ x ∈ g, isAlnumChar x = true) :
    matchTaskAt ('_' :: (g ++ '.' :: 'p' :: 't' :: b)) = some g := by
  have hdot : isAlnumChar '.' = false := rfl
  obtain ⟨ht, hd⟩ := takeWhile_append_of_all isAlnumChar g ha '.' hdot
    ('p' :: 't' :: b)
  simp only [matchTaskAt, if_pos rfl, ht, hd]
  simp [hne]

theorem searchTask_sound :
    ∀ {l g : List Char}, searchTask l = some g →
      ∃ a b, l = a ++ '_' :: (g ++ '.' :: 'p' :: 't' :: b) ∧ g ≠ [] ∧
        ∀ x ∈ g, isAlnumChar x = true := by
  intro l
  induction l with
  | nil => intro g h; simp [searchTask] at h
  | cons c cs ih =>
    intro g h
    simp only [searchTask] at h
    cases hm : matchTaskAt (c :: cs) with
    | some g' =>
      rw [hm] at h
      injection h with h
      subst h
      obtain ⟨b, hdec, hne, ha⟩ := matchTaskAt_sound hm
      exact ⟨[], b, by rw [List.nil_append, hdec], hne, ha⟩
    | none =>
      rw [hm] at h
      obtain ⟨a, b, hdec, hne, ha⟩ := ih h
      exact ⟨c :: a, b, by rw [List.cons_append, hdec], hne, ha⟩

theorem searchTask_complete :
    ∀ (l a g b : List Char), l = a ++ '_' :: (g ++ '.' :: 'p' :: 't' :: b) →
      g ≠ [] → (∀ x ∈ g, isAlnumChar x = true) → (searchTask l).isSome := by
  intro l
  induction l with
  | nil =>
    intro a g b heq _ _
    have := congrArg List.length heq
    simp at this
    omega
  | cons c cs ih =>
    intro a g b heq hne ha
    cases hm : matchTaskAt (c :: cs) with
    | some g' => simp [searchTask, hm]
    | none =>
      cases a with
      | nil =>
        exfalso
        rw [List.nil_append] at heq
        have hcomp := matchTaskAt_complete b hne ha
        rw [← heq, hm] at hcomp
        exact Option.noConfusion hcomp
      | cons a0 a' =>
        rw [List.cons_append] at heq
        injection heq with h1 h2
        simp only [searchTask, hm]
        exact ih a' g b h2 hne ha

theorem lastSepIdx_sound {P : List Char} {j : Nat} (h : lastSepIdx P = some j) :
    1 ≤ j ∧ j < P.length ∧ P[j]? = some '_' := by
  unfold lastSepIdx at h
  have hmem := List.mem_of_mem_getLast? (Option.mem_def.mpr h)
  rw [List.mem_filter] at hmem
  obtain ⟨hrange, hpred⟩ := hmem
  rw [List.mem_range] at hrange
  simp only [Bool.and_eq_true, decide_eq_true_eq] at hpred
  exact ⟨hpred.1, hrange, hpred.2⟩

theorem lastSepIdx_isSome {P : List Char} {j : Nat} (h1 : 1 ≤ j)
    (h2 : P[j]? = some '_') : (lastSepIdx P).isSome := by
  unfold lastSepIdx
  rw [List.getLast?_isSome]
  have hlt : j < P.length := by
    obtain ⟨hfin, -⟩ := List.getElem?_eq_some_iff.mp h2
    exact hfin
  have hj : j ∈ (List.range P.length).filter
      (fun j => decide (1 ≤ j) && decide (P[j]? = some '_')) := by
    rw [List.mem_filter, List.mem_range]
    exact ⟨hlt, by simp [h1, h2]⟩
  exact List.ne_nil_of_mem hj

theorem matchKeyAt_sound {key l g : List Char} (h : matchKeyAt key l = some g) :
    ∃ b, l = key ++ (g ++ '_' :: b) ∧ g ≠ [] ∧ ∀ x ∈ g, x ≠ '\n' := by
  unfold matchKeyAt at h
  split_ifs at h with htake
  · set P := (l.drop key.length).takeWhile (fun c => c != '\n') with hP
    cases hls : lastSepIdx P with
    | none => rw [hls] at h; exact Option.noConfusion h
    | some j =>
      rw [hls] at h
      injection h with h
      obtain ⟨h1, hlt, hget⟩ := lastSepIdx_sound hls
      obtain ⟨hfin, hPj⟩ := List.getElem?_eq_some_iff.mp hget
      refine ⟨P.drop (j + 1) ++ (l.drop key.length).dropWhile (fun c => c != '\n'),
        ?_, ?_, ?_⟩
      · have hdropP : P.drop j = '_' :: P.drop (j + 1) := by
          rw [List.drop_eq_getElem_cons hfin, hPj]
        have hPsplit : P.take j ++ P.drop j = P := List.take_append_drop j P
        have hrest : P ++ (l.drop key.length).dropWhile (fun c => c != '\n')
            = l.drop key.length :=
          List.takeWhile_append_dropWhile _ _
        have hl : l = key ++ l.drop key.length := by
          conv_lhs => rw [← List.take_append_drop key.length l]
          rw [htake]
        rw [← h]
        conv_lhs => rw [hl, ← hrest, ← hPsplit, hdropP]
        simp
      · rw [← h]
        have hlen : (P.take j).length = j := by
          rw [List.length_take]
          omega
        intro hnil
        rw [hnil] at hlen
        simp only [List.length_nil] at hlen
        omega
      · rw [← h]
        intro x hx
        have hxP : x ∈ P := List.mem_of_mem_take hx
        have := List.mem_takeWhile_imp hxP
        simpa using this

theorem matchKeyAt_complete (key : List Char) {g : List Char} (b : List Char) (hne : g ≠ [])
    (hnl : ∀ x ∈ g, x ≠ '\n') :
    (matchKeyAt key (key ++ (g ++ '_' :: b))).isSome := by
  unfold matchKeyAt
  have htake : (key ++ (g ++ '_' :: b)).take key.length = key :=
    List.take_left key _
  have hdrop : (key ++ (g ++ '_' :: b)).drop key.length = g ++ '_' :: b :=
    List.drop_left key _
  rw [if_pos htake, hdrop]
  have hgp : ∀ x ∈ g, (x != '\n') = true := by
    intro x hx
    simpa using hnl x hx
  have hPeq : (g ++ '_' :: b).takeWhile (fun c => c != '\n')
      = g ++ ('_' :: b).takeWhile (fun c => c != '\n') :=
    takeWhile_append_all _ g hgp ('_' :: b)
  have hPcons : ('_' :: b).takeWhile (fun c => c != '\n')
      = '_' :: b.takeWhile (fun c => c != '\n') := by
    simp [List.takeWhile_cons]
  have hget : ((g ++ '_' :: b).takeWhile (fun c => c != '\n'))[g.length]?
      = some '_' := by
    rw [hPeq, hPcons, List.getElem?_append_right (Nat.le_refl g.length)]
    simp
  have h1 : 1 ≤ g.length := by
    cases g with
    | nil => exact absurd rfl hne
    | cons x xs => simp
  have hsome := lastSepIdx_isSome h1 hget
  cases hls : lastSepIdx ((g ++ '_' :: b).takeWhile (fun c => c != '\n')) with
  | none => rw [hls] at hsome; simp at hsome
  | some j => rfl

theorem searchKey_sound {key : List Char} :
    ∀ {l g : List Char}, searchKey key l = some g →
      ∃ a b, l = a ++ key ++ (g ++ '_' :: b) ∧ g ≠ [] ∧ ∀ x ∈ g, x ≠ '\n' := by
  intro l
  induction l with
  | nil => intro g h; simp [searchKey] at h
  | cons c cs ih =>
    intro g h
    simp only [searchKey] at h
    cases hm : matchKeyAt key (c :: cs) with
    | some g' =>
      rw [hm] at h
      injection h with h
      subst h
      obtain ⟨b, hdec, hne, hnl⟩ := matchKeyAt_sound hm
      exact ⟨[], b, by rw [List.nil_append, hdec], hne, hnl⟩
    | none =>
      rw [hm] at h
      obtain ⟨a, b, hdec, hne, hnl⟩ := ih h
      refine ⟨c :: a, b, ?_, hne, hnl⟩
      simp only [List.cons_append]
      rw [hdec]

theorem searchKey_complete {key : List Char} :
    ∀ (l a g b : List Char), l = a ++ key ++ (g ++ '_' :: b) → g ≠ [] →
      (∀ x ∈ g, x ≠ '\n') → (searchKey key l).isSome := by
  intro l
  induction l with
  | nil =>
    intro a g b heq _ _
    have := congrArg List.length heq
    simp at this
    omega
  | cons c cs ih =>
    intro a g b heq hne hnl
    cases hm : matchKeyAt key (c :: cs) with
    | some g' => simp [searchKey, hm]
    | none =>
      cases a with
      | nil =>
        exfalso
        simp only [List.nil_append] at heq
        have hcomp := matchKeyAt_complete key b hne hnl
        rw [← heq, hm] at hcomp
        simp at hcomp
      | cons a0 a' =>
        simp only [List.cons_append] at heq
        injection heq with h1 h2
        simp only [searchKey, hm]
        exact ih a' g b h2 hne hnl

/-- C5: task and model-type identifiers are resolved from the model path
by pattern matching.  The task regex `_([a-zA-Z0-9]+)\.pt` matches exactly
when the path contains a `_<alphanumeric>.pt` segment; on a match the task
becomes the captured group, otherwise the `--task` value is kept.  The
model type is the group captured by `teacher_(.+)_` when that pattern
matches, with `is_teacher := true`; otherwise the group captured by
`student_(.+)_`, with `is_teacher := false`; and the teacher pattern does
match whenever the path contains `teacher_<nonempty newline-free>_`. -/
theorem C5_path_pattern_resolution (p task : String) :
    ((searchTask p.data).isSome ↔
      ∃ a g b, p.data = a ++ '_' :: (g ++ '.' :: 'p' :: 't' :: b) ∧ g ≠ [] ∧
        ∀ x ∈ g, isAlnumChar x = true) ∧
    (∀ g, searchTask p.data = some g →
      resolveTaskStep (some p) task = (String.mk g, []) ∧
      ∃ a b, p.data = a ++ '_' :: (g ++ '.' :: 'p' :: 't' :: b)) ∧
    (searchTask p.data = none → resolveTaskStep (some p) task = (task, [])) ∧
    (∀ g, searchKey teacherKey p.data = some g →
      resolveModelType (some p) = .ok (String.mk g, true) ∧
      ∃ a b, p.data = a ++ teacherKey ++ (g ++ '_' :: b) ∧ g ≠ []) ∧
    (searchKey teacherKey p.data = none →
      ∀ g, searchKey studentKey p.data = some g →
        resolveModelType (some p) = .ok (String.mk g, false) ∧
        ∃ a b, p.data = a ++ studentKey ++ (g ++ '_' :: b) ∧ g ≠ []) ∧
    (∀ a g b, p.data = a ++ teacherKey ++ (g ++ '_' :: b) → g ≠ [] →
      (∀ x ∈ g, x ≠ '\n') → (searchKey teacherKey p.data).isSome) := by
  refine ⟨⟨?_, ?_⟩, ?_, ?_, ?_, ?_, ?_⟩
  · intro hs
    obtain ⟨g, hg⟩ := Option.isSome_iff_exists.mp hs
    obtain ⟨a, b, hdec, hne, ha⟩ := searchTask_sound hg
    exact ⟨a, g, b, hdec, hne, ha⟩
  · rintro ⟨a, g, b, hdec, hne, ha⟩
    exact searchTask_complete p.data a g b hdec hne ha
  · intro g hg
    refine ⟨?_, ?_⟩
    · simp only [resolveTaskStep, hg]
    · obtain ⟨a, b, hdec, -, -⟩ := searchTask_sound hg
      exact ⟨a, b, hdec⟩
  · intro hnone
    simp only [resolveTaskStep, hnone]
  · intro g hg
    refine ⟨?_, ?_⟩
    · simp only [resolveModelType, hg]
    · obtain ⟨a, b, hdec, hne, -⟩ := searchKey_sound hg
      exact ⟨a, b, hdec, hne⟩
  · intro hT g hg
    refine ⟨?_, ?_⟩
    · simp only [resolveModelType, hT, hg]
    · obtain ⟨a, b, hdec, hne, -⟩ := searchKey_sound hg
      exact ⟨a, b, hdec, hne⟩
  · intro a g b hdec hne hnl
    exact searchKey_complete p.data a g b hdec hne hnl

end BuildExplanation
